import Mathlib

/-!
Shallow embedding of the Job Bank ETL pipeline
(`src/ETL/fetch_jobbank_master_raw.py`) and the Streamlit dashboard loader
(`src/streamlit_app/app.py`).

Strings are modelled as `List Char` (Python `str` on the relevant inputs),
byte files as lists of byte values.  Each definition mirrors one Python
function of the repository; the theorems at the end of the file settle the
frozen claims about them.
-/

namespace JobBank

/-! ### app.py: local file model and `is_parquet` -/

/-- A local file as seen by `is_parquet`: whether the path exists and the
byte content.  `stat().st_size` is the length of the content. -/
structure DiskFile where
  present : Bool
  content : List Nat
  deriving DecidableEq, Repr

/-- The 4-byte columnar magic header `b"PAR1"` (bytes of `P`, `A`, `R`, `1`). -/
def par1Magic : List Nat := [0x50, 0x41, 0x52, 0x31]

/-- `app.py` `is_parquet`: `False` when the path does not exist or
`st_size < 4`; otherwise compare the first 4 bytes with `b"PAR1"`. -/
def is_parquet (f : DiskFile) : Bool :=
  if !f.present || f.content.length < 4 then false
  else f.content.take 4 == par1Magic

/-- Byte content of an HTML error page, beginning with `<html`
(`<`, `h`, `t`, `m`, `l`, `>`). -/
def htmlBytes : List Nat := [0x3c, 0x68, 0x74, 0x6d, 0x6c, 0x3e]

/-! ### ETL helpers: substring test and `english_only` -/

/-- Python `sub in s` on strings: `sub` occurs contiguously in `s`. -/
def strContains (s sub : List Char) : Bool :=
  (List.range (s.length + 1)).any (fun i => (s.drop i).take sub.length == sub)

/-- The marker list literally present in the source of `english_only`.
The second entry is the mojibake two-character sequence `√ß` (U+221A, U+00DF)
that the committed file contains in place of `ç`. -/
def frenchMarkers : List (List Char) :=
  ["french".toList, "fran√ßais".toList, "francais".toList]

/-- `fetch_jobbank_master_raw.py` `english_only`: keep a (lower-cased) name
iff it contains none of the marker substrings. -/
def english_only (nameLower : List Char) : Bool :=
  !(frenchMarkers.any (fun m => strContains nameLower m))

/-! ### ETL: `extract_year_month`

Word-boundary matching of Python's `re` module, restricted to ASCII input
(where `\w` is `[A-Za-z0-9_]` and `str.lower` agrees with `Char.toLower`). -/

/-- A character matched by `\w` (ASCII fragment). -/
def isWordChar (c : Char) : Bool :=
  c.isAlpha || c.isDigit || c == '_'

/-- The word `w` occurs in `s` starting at index `i`, with `\b` on both
sides: the preceding and following characters (when they exist) are not
word characters. -/
def wholeWordAt (s : List Char) (i : Nat) (w : List Char) : Bool :=
  decide (i + w.length ≤ s.length) &&
  ((s.drop i).take w.length == w) &&
  (decide (i = 0) || !(isWordChar (s.getD (i - 1) ' '))) &&
  (decide (i + w.length = s.length) || !(isWordChar (s.getD (i + w.length) ' ')))

/-- The pattern `\b20\d{2}\b` matches at index `i` of `s`. -/
def yearTokenAt (s : List Char) (i : Nat) : Bool :=
  decide (i + 4 ≤ s.length) &&
  (s.getD i ' ' == '2') && (s.getD (i + 1) ' ' == '0') &&
  (s.getD (i + 2) ' ').isDigit && (s.getD (i + 3) ' ').isDigit &&
  (decide (i = 0) || !(isWordChar (s.getD (i - 1) ' '))) &&
  (decide (i + 4 = s.length) || !(isWordChar (s.getD (i + 4) ' ')))

/-- Numeric value of the 4-digit year token starting at index `i`. -/
def yearValAt (s : List Char) (i : Nat) : Nat :=
  2000 + 10 * ((s.getD (i + 2) '0').toNat - '0'.toNat)
       + ((s.getD (i + 3) '0').toNat - '0'.toNat)

/-- `re.search(r"\b(20\d{2})\b", s)`: value of the leftmost year token. -/
def findYear (s : List Char) : Option Nat :=
  ((List.range s.length).find? (fun i => yearTokenAt s i)).map (yearValAt s)

/-- The `MONTHS` dictionary, in its insertion order. -/
def MONTHS : List (List Char × Nat) :=
  [("january".toList, 1), ("february".toList, 2), ("march".toList, 3),
   ("april".toList, 4), ("may".toList, 5), ("june".toList, 6),
   ("july".toList, 7), ("august".toList, 8), ("september".toList, 9),
   ("october".toList, 10), ("november".toList, 11), ("december".toList, 12)]

/-- `re.search(rf"\b{m}\b", s)` succeeds: `m` occurs somewhere in `s` as a
whole word. -/
def occursWord (s w : List Char) : Bool :=
  (List.range (s.length + 1)).any (fun i => wholeWordAt s i w)

/-- The loop over `MONTHS`: the first month word (in dictionary order) that
occurs in `s`, with its number. -/
def findMonth (s : List Char) : Option Nat :=
  (MONTHS.find? (fun p => occursWord s p.1)).map (fun p => p.2)

/-- `fetch_jobbank_master_raw.py` `extract_year_month`: lower-case the name,
find a year token, then a month word; `none` when either is missing. -/
def extract_year_month (name : List Char) : Option (Nat × Nat) :=
  let s := name.map Char.toLower
  match findYear s with
  | none => none
  | some y =>
    match findMonth s with
    | none => none
    | some m => some (y, m)

/-- `ym_key`: the string `f"{year}-{month:02d}"`. -/
def ym_key (year month : Nat) : List Char :=
  (Nat.repr year).toList ++ '-' ::
    (if month < 10 then '0' :: (Nat.repr month).toList else (Nat.repr month).toList)

/-! ### ETL: Downloaded-Months State file (`load_state` / `save_state`) -/

/-- Characters on which Python `str.splitlines` breaks. -/
def isLineBreakCh (c : Char) : Bool :=
  c == '\n' || c == '\r' || c == '\x0b' || c == '\x0c' ||
  c == '\x1c' || c == '\x1d' || c == '\x1e' || c == '\x85' ||
  c == '\u2028' || c == '\u2029'

/-- Characters stripped by Python `str.strip` (`str.isspace`). -/
def isPySpace (c : Char) : Bool :=
  isLineBreakCh c || c == ' ' || c == '\t' || c == '\x1f' || c == '\xa0'

/-- Python `str.strip()`: remove leading and trailing whitespace. -/
def pyStrip (s : List Char) : List Char :=
  ((s.dropWhile isPySpace).reverse.dropWhile isPySpace).reverse

/-- Worker for `splitlinesPy`; `acc` is the current line, reversed.  A
carriage return directly followed by a newline consumes both characters. -/
def splitlinesAux : List Char → List Char → List (List Char)
  | [], acc => if acc.isEmpty then [] else [acc.reverse]
  | c :: rest, acc =>
    if isLineBreakCh c then
      acc.reverse ::
        (match rest with
         | [] => []
         | d :: rest2 =>
           if c == '\r' && d == '\n' then splitlinesAux rest2 []
           else splitlinesAux (d :: rest2) [])
    else splitlinesAux rest (c :: acc)

/-- Python `str.splitlines()`: split at line breaks (`\r\n` counts once),
with no trailing empty line. -/
def splitlinesPy (s : List Char) : List (List Char) :=
  splitlinesAux s []

/-- Python string `<` : strict lexicographic comparison by code point. -/
def lexLt : List Char → List Char → Bool
  | [], [] => false
  | [], _ :: _ => true
  | _ :: _, [] => false
  | a :: as, b :: bs => a < b || (a == b && lexLt as bs)

/-- Python string `<=`, used as the `sorted` comparison. -/
def lexLe (a b : List Char) : Bool := a == b || lexLt a b

/-- `load_state` applied to the text `content` of the state file: split into
lines, strip each, drop empties, collect as a set (modulo duplicates). -/
def load_state (content : List Char) : List (List Char) :=
  (((splitlinesPy content).map pyStrip).filter (fun x => !x.isEmpty)).dedup

/-- Python `"\n".join(lines)`. -/
def joinLines : List (List Char) → List Char
  | [] => []
  | [k] => k
  | k :: rest => k ++ '\n' :: joinLines rest

/-- `save_state`: the text written to the state file,
`"\n".join(sorted(state)) + "\n"`.  The set is modelled as a
duplicate-free list in arbitrary order. -/
def save_state (state : List (List Char)) : List Char :=
  joinLines (state.mergeSort lexLe) ++ ['\n']

/-! ### ETL: `read_csv_robust_from_bytes`

`pd.read_csv` is abstracted by an oracle `parse : encoding → separator →
Except Unit Frame` (an `Except.error` is a raised exception); a frame is
abstracted by its column count `df.shape[1]`. -/

/-- A parsed dataframe, abstracted to its number of columns. -/
structure Frame where
  ncols : Nat
  deriving DecidableEq, Repr

/-- The encodings tried, in order. -/
def encodingsToTry : List (List Char) :=
  ["utf-8".toList, "utf-8-sig".toList, "latin1".toList, "utf-16".toList]

/-- The tab separator string. -/
def tabSep : List Char := ['\t']

/-- The `for enc in encodings_to_try` loop of `read_csv_robust_from_bytes`:
each iteration parses with the sniffed separator `sep`; on one column (and
`sep` not tab) it retries tab-delimited inside the same `try`, so a raised
retry also falls through to the next encoding.  Returns
`(df, encoding, delimiter)` or the final `RuntimeError`. -/
def readCsvLoop (parse : List Char → List Char → Except Unit Frame)
    (sep : List Char) : List (List Char) → Except Unit (Frame × List Char × List Char)
  | [] => .error ()
  | enc :: rest =>
    match parse enc sep with
    | .error _ => readCsvLoop parse sep rest
    | .ok df =>
      if df.ncols == 1 && sep != tabSep then
        match parse enc tabSep with
        | .error _ => readCsvLoop parse sep rest
        | .ok df2 =>
          if df2.ncols > 1 then .ok (df2, enc, tabSep) else .ok (df, enc, sep)
      else .ok (df, enc, sep)

/-- `read_csv_robust_from_bytes`, given the sniffed delimiter of the byte
content and the parse oracle for that content. -/
def read_csv_robust_from_bytes (parse : List Char → List Char → Except Unit Frame)
    (sep : List Char) : Except Unit (Frame × List Char × List Char) :=
  readCsvLoop parse sep encodingsToTry

/-! ### ETL: `list_monthly_resources_dedup`

A CKAN resource record and the candidate dictionary built from it; the
Python `dict` keyed by month key is modelled as an association list with
first-match lookup and in-place replacement, which matches `dict` lookup
and assignment. -/

/-- The fields of a CKAN resource record used by the listing. -/
structure Resource where
  format : List Char
  name : List Char
  url : List Char
  created : List Char
  deriving DecidableEq, Repr

/-- A surviving candidate, as built in the loop body. -/
structure Cand where
  year : Nat
  month : Nat
  ym : List Char
  name : List Char
  url : List Char
  created : List Char
  deriving DecidableEq, Repr

/-- `str.upper` (ASCII, which covers format strings like `"csv"`). -/
def upperStr (s : List Char) : List Char := s.map Char.toUpper

/-- The filter part of the loop body of `list_monthly_resources_dedup`:
`none` when the resource is dropped (non-CSV format, French marker, no
Month Key, or year out of `[START_YEAR, CURRENT_YEAR]`), otherwise the
candidate record. -/
def toCandidate (startYear currentYear : Nat) (r : Resource) : Option Cand :=
  if upperStr r.format ≠ "CSV".toList then none
  else
    let nameL := r.name.map Char.toLower
    if ¬ english_only nameL then none
    else
      match extract_year_month r.name with
      | none => none
      | some (year, month) =>
        if year < startYear ∨ currentYear < year then none
        else some ⟨year, month, ym_key year month, r.name, r.url, r.created⟩

/-- All surviving candidates of a resource list, in order. -/
def candidatesOf (startYear currentYear : Nat) (rs : List Resource) : List Cand :=
  rs.filterMap (toCandidate startYear currentYear)

/-- `dict` lookup in the association-list model (first match). -/
def assocLookup : List (List Char × Cand) → List Char → Option Cand
  | [], _ => none
  | (k, v) :: rest, key => if key = k then some v else assocLookup rest key

/-- `dict` assignment to an existing key: replace the value in place. -/
def assocReplace : List (List Char × Cand) → List Char → Cand → List (List Char × Cand)
  | [], _, _ => []
  | (k, v) :: rest, key, c =>
    if key = k then (k, c) :: rest else (k, v) :: assocReplace rest key c

/-- One iteration of the dedup loop on the `by_month` dictionary: a new key
is inserted; an existing key is overwritten only when the new candidate's
`created` string is strictly greater. -/
def byMonthStep (d : List (List Char × Cand)) (c : Cand) : List (List Char × Cand) :=
  match assocLookup d c.ym with
  | none => d ++ [(c.ym, c)]
  | some b => if lexLt b.created c.created then assocReplace d c.ym c else d

/-- The `by_month` dictionary after the whole loop. -/
def buildByMonth (cands : List Cand) : List (List Char × Cand) :=
  cands.foldl byMonthStep []

/-- Sort order of the output list: by `(year, month)`. -/
def ymLe (a b : Cand) : Bool :=
  a.year < b.year || (a.year == b.year && a.month ≤ b.month)

/-- `list_monthly_resources_dedup` on a given resource list (the network
fetch is abstracted away): filter, dedup by month key, sort by
`(year, month)`. -/
def list_monthly_resources_dedup (startYear currentYear : Nat)
    (rs : List Resource) : List Cand :=
  ((buildByMonth (candidatesOf startYear currentYear rs)).map Prod.snd).mergeSort ymLe

/-- One candidate against the per-key incumbent: a missing incumbent is
installed, an incumbent is replaced only on strictly greater `created`. -/
def stepCand (c : Cand) : Option Cand → Option Cand
  | none => some c
  | some b => if lexLt b.created c.created then some c else some b

/-- Per-key view of the dedup loop: the incumbent for key `k` after folding
the candidate list over an initial accumulator. -/
def bestForAux (k : List Char) (acc : Option Cand) : List Cand → Option Cand
  | [] => acc
  | c :: rest => bestForAux k (if c.ym ≠ k then acc else stepCand c acc) rest

/-! ### ETL: `main`

The entry point is modelled by the sequence of file-write effects it
performs and its outcome.  Fetching and parsing one month is abstracted by
an oracle `fetch : Cand → Except Unit Frame`; a `.error` is a raised
exception that aborts the run (network error, or `read_csv_robust_from_bytes`
exhausting all encodings). -/

/-- The file writes `main` can perform, in order of occurrence. -/
inductive Effect where
  | rawMonthly (ym : List Char)
  | masterParquet
  | masterCsv
  | stateFile
  deriving DecidableEq, Repr

/-- The `for r in new_months` loop: fetch and parse each month (abort on a
raised exception, keeping the effects so far), write the monthly raw CSV
(`SAVE_MONTHLY_RAW_CSV` is `True`), and collect the frame. -/
def runMonths (fetch : Cand → Except Unit Frame) :
    List Cand → List Effect × Except Unit (List Frame)
  | [] => ([], .ok [])
  | c :: rest =>
    match fetch c with
    | .error e => ([], .error e)
    | .ok df =>
      (Effect.rawMonthly c.ym :: (runMonths fetch rest).1,
       (runMonths fetch rest).2.map (fun l => df :: l))

/-- `main`, given the loaded state, the deduped resource listing, and the
fetch oracle: if no month key is new, return with no writes; otherwise run
the month loop, and only after every month succeeded write the master
parquet, the master CSV mirror, and the state file, in that order. -/
def runMain (state : List (List Char)) (resources : List Cand)
    (fetch : Cand → Except Unit Frame) : List Effect × Except Unit Unit :=
  let newMonths := resources.filter (fun r => !(state.contains r.ym))
  if newMonths.isEmpty then ([], .ok ())
  else
    match (runMonths fetch newMonths).2 with
    | .error e => ((runMonths fetch newMonths).1, .error e)
    | .ok _ =>
      ((runMonths fetch newMonths).1 ++
        [Effect.masterParquet, Effect.masterCsv, Effect.stateFile], .ok ())

/-! ### app.py: `load_data`

Modelled on the cache file state: `localFile` is the cached copy before the
call, `downloaded` the byte content that `download_from_gdrive` leaves at
the path.  The result is the validated file or the raised error message. -/

/-- The message of the `RuntimeError` raised by `load_data` when the file
is still invalid after the download. -/
def parquetMissingMsg : List Char :=
  "Downloaded file is not a valid Parquet (PAR1 missing).".toList

/-- `app.py` `load_data`: on `force` delete the cached copy; when the copy
is missing or fails `is_parquet`, delete it, download a fresh copy, and
re-validate with `is_parquet`, raising `parquetMissingMsg` when the check
still fails. -/
def load_data (force : Bool) (localFile : DiskFile) (downloaded : List Nat) :
    Except (List Char) DiskFile :=
  let f1 := if force && localFile.present then DiskFile.mk false [] else localFile
  if !f1.present || !(is_parquet f1) then
    let f2 : DiskFile := ⟨true, downloaded⟩
    if !(is_parquet f2) then .error parquetMissingMsg else .ok f2
  else .ok f1

/-! ### Concrete inputs used by the witnesses -/

/-- A parse oracle: one column under any non-tab separator, three columns
tab-delimited. -/
def tabOnlyParse : List Char → List Char → Except Unit Frame :=
  fun _ s => if s == tabSep then .ok ⟨3⟩ else .ok ⟨1⟩

/-- A concrete candidate for January 2024. -/
def candJan2024 : Cand :=
  ⟨2024, 1, "2024-01".toList, "Job Bank January 2024".toList,
   "http://x/ja24.csv".toList, "2024-02-01T00:00:00".toList⟩

/-- A fetch oracle that always succeeds. -/
def okFetch : Cand → Except Unit Frame := fun _ => .ok ⟨2⟩

/-- A fetch oracle that always raises. -/
def failFetch : Cand → Except Unit Frame := fun _ => .error ()

/-- A CKAN resource for January 2024, earlier creation timestamp. -/
def resJan24v1 : Resource :=
  ⟨"CSV".toList, "Job Bank January 2024 v1".toList, "u1".toList,
   "2024-02-01T00:00:00".toList⟩

/-- A CKAN resource for January 2024, later creation timestamp. -/
def resJan24v2 : Resource :=
  ⟨"CSV".toList, "Job Bank January 2024 v2".toList, "u2".toList,
   "2024-02-05T00:00:00".toList⟩

/-- The candidate built from `resJan24v2`. -/
def candJan24v2 : Cand :=
  ⟨2024, 1, "2024-01".toList, "Job Bank January 2024 v2".toList, "u2".toList,
   "2024-02-05T00:00:00".toList⟩

/-! ## Helper lemmas on the string order -/

theorem lexLt_irrefl (a : List Char) : lexLt a a = false := by
  induction a with
  | nil => rfl
  | cons c as ih => simp [lexLt, ih]

theorem lexLt_asymm : ∀ {a b : List Char}, lexLt a b = true → lexLt b a = false
  | [], [], h => by simp [lexLt] at h
  | [], _ :: _, _ => rfl
  | _ :: _, [], h => by simp [lexLt] at h
  | a :: as, b :: bs, h => by
    simp only [lexLt, Bool.or_eq_true, Bool.and_eq_true, decide_eq_true_eq,
      beq_iff_eq] at h
    simp only [lexLt]
    rcases h with h | ⟨rfl, h⟩
    · rw [decide_eq_false (lt_asymm h),
        beq_eq_false_iff_ne.mpr (Ne.symm (ne_of_lt h))]
      rfl
    · rw [decide_eq_false (lt_irrefl a), beq_self_eq_true, Bool.true_and,
        lexLt_asymm h]
      rfl

theorem lexLt_trans : ∀ {a b c : List Char},
    lexLt a b = true → lexLt b c = true → lexLt a c = true
  | [], _, _ :: _, _, _ => rfl
  | [], [], [], h, _ => by simp [lexLt] at h
  | [], _ :: _, [], _, h => by simp [lexLt] at h
  | _ :: _, [], _, h, _ => by simp [lexLt] at h
  | _ :: _, _ :: _, [], _, h => by simp [lexLt] at h
  | a :: as, b :: bs, c :: cs, h₁, h₂ => by
    simp only [lexLt, Bool.or_eq_true, Bool.and_eq_true, decide_eq_true_eq,
      beq_iff_eq] at h₁ h₂ ⊢
    rcases h₁ with h₁ | ⟨rfl, h₁⟩
    · rcases h₂ with h₂ | ⟨rfl, h₂⟩
      · exact Or.inl (h₁.trans h₂)
      · exact Or.inl h₁
    · rcases h₂ with h₂ | ⟨rfl, h₂⟩
      · exact Or.inl h₂
      · exact Or.inr ⟨rfl, lexLt_trans h₁ h₂⟩

theorem lexLt_connex : ∀ a b : List Char, a = b ∨ lexLt a b = true ∨ lexLt b a = true
  | [], [] => Or.inl rfl
  | [], _ :: _ => Or.inr (Or.inl rfl)
  | _ :: _, [] => Or.inr (Or.inr rfl)
  | a :: as, b :: bs => by
    rcases lt_trichotomy a b with h | rfl | h
    · refine Or.inr (Or.inl ?_)
      simp only [lexLt]
      rw [decide_eq_true h]
      rfl
    · rcases lexLt_connex as bs with rfl | h | h
      · exact Or.inl rfl
      · refine Or.inr (Or.inl ?_)
        simp only [lexLt]
        rw [beq_self_eq_true, Bool.true_and, h, Bool.or_true]
      · refine Or.inr (Or.inr ?_)
        simp only [lexLt]
        rw [beq_self_eq_true, Bool.true_and, h, Bool.or_true]
    · refine Or.inr (Or.inr ?_)
      simp only [lexLt]
      rw [decide_eq_true h]
      rfl

theorem lexLe_trans (a b c : List Char) (h₁ : lexLe a b = true) (h₂ : lexLe b c = true) :
    lexLe a c = true := by
  simp only [lexLe, Bool.or_eq_true, beq_iff_eq] at h₁ h₂ ⊢
  rcases h₁ with rfl | h₁
  · exact h₂
  · rcases h₂ with rfl | h₂
    · exact Or.inr h₁
    · exact Or.inr (lexLt_trans h₁ h₂)

theorem lexLe_total (a b : List Char) : (lexLe a b || lexLe b a) = true := by
  simp only [lexLe, Bool.or_eq_true, beq_iff_eq]
  rcases lexLt_connex a b with rfl | h | h
  · exact Or.inl (Or.inl rfl)
  · exact Or.inl (Or.inr h)
  · exact Or.inr (Or.inr h)

/-! ## Claims -/

/-- C1: `is_parquet` accepts a local file iff it exists, is non-empty, and
its first 4 bytes are `b"PAR1"`; a zero-byte file, a file beginning with
`<html`, and a file truncated inside the magic header are rejected, and a
file beginning with the `PAR1` bytes is accepted. -/
theorem claim_c1_is_parquet_iff :
    (∀ f : DiskFile, is_parquet f = true ↔
       (f.present = true ∧ f.content ≠ [] ∧ f.content.take 4 = par1Magic))
    ∧ is_parquet ⟨true, []⟩ = false
    ∧ is_parquet ⟨true, htmlBytes⟩ = false
    ∧ is_parquet ⟨true, [0x50, 0x41, 0x52]⟩ = false
    ∧ is_parquet ⟨true, par1Magic ++ [0xaa, 0xbb]⟩ = true := by
  refine ⟨fun f => ?_, by decide, by decide, by decide, by decide⟩
  rcases f with ⟨p, c⟩
  cases p
  · simp [is_parquet]
  · simp only [is_parquet, Bool.not_true, Bool.false_or]
    by_cases hlen : c.length < 4
    · rw [decide_eq_true hlen]
      refine iff_of_false (by simp) ?_
      rintro ⟨-, -, htake⟩
      have h4 : (c.take 4).length = 4 := by rw [htake]; rfl
      rw [List.length_take] at h4
      omega
    · rw [decide_eq_false hlen]
      simp only [if_neg (by simp : ¬ (false = true)), beq_iff_eq,
        eq_self_iff_true, true_and]
      constructor
      · intro h
        refine ⟨?_, h⟩
        rintro rfl
        simp at hlen
      · rintro ⟨-, h⟩
        exact h

/-- C7: the committed marker list contains the mojibake `"fran√ßais"`, not
`"français"`, so a (lower-cased) name containing the spelling `"français"`
is **kept** by `english_only`, while `"francais"` and `"french"` are
dropped — the code evaluated at the failing input. -/
theorem claim_c7_francais_name_kept :
    strContains "labour market français january 2024".toList "français".toList = true
    ∧ english_only "labour market français january 2024".toList = true
    ∧ english_only "labour market francais january 2024".toList = false
    ∧ english_only "labour market french january 2024".toList = false := by decide

/-- C8: when the cache is absent and the download leaves an HTML page,
`load_data` raises the fixed message `"Downloaded file is not a valid
Parquet (PAR1 missing)."`, which does not include the byte signature
(`<html`) actually found in the downloaded file — the code evaluated at
the failing input (the signature-reporting block of `app.py` is dedented
to module level, where it references the undefined name `dest`). -/
theorem claim_c8_error_without_signature :
    load_data false ⟨false, []⟩ htmlBytes = .error parquetMissingMsg
    ∧ is_parquet ⟨true, htmlBytes⟩ = false
    ∧ strContains parquetMissingMsg "<html".toList = false :=
  ⟨rfl, by decide, by decide⟩

/-- C2: on a name whose year tokens all read the value `y` (and at least
one is present) and in which exactly one recognized month word occurs as a
whole word, `extract_year_month` returns `(y, that month)`; a name with no
year token, or with no month word, yields `none`.  (Lower-casing and the
`\b`/`\w` model are the ASCII fragment of Python's, hence the ASCII
hypothesis on the name.) -/
theorem claim_c2_extract_year_month :
    (∀ (name : List Char) (y : Nat) (mw : List Char) (mn : Nat),
      (∀ c ∈ name, c.toNat < 128) →
      (∃ i, i < (name.map Char.toLower).length ∧
         yearTokenAt (name.map Char.toLower) i = true) →
      (∀ i, i < (name.map Char.toLower).length →
         yearTokenAt (name.map Char.toLower) i = true →
         yearValAt (name.map Char.toLower) i = y) →
      (mw, mn) ∈ MONTHS →
      occursWord (name.map Char.toLower) mw = true →
      (∀ p ∈ MONTHS, occursWord (name.map Char.toLower) p.1 = true → p = (mw, mn)) →
      extract_year_month name = some (y, mn))
    ∧ (∀ name : List Char,
        ((∀ i, i < (name.map Char.toLower).length →
            yearTokenAt (name.map Char.toLower) i = false) ∨
         (∀ p ∈ MONTHS, occursWord (name.map Char.toLower) p.1 = false)) →
        extract_year_month name = none) := by
  constructor
  · intro name y mw mn _ hex huniqY hmem hocc huniqM
    set s := name.map Char.toLower with hs
    have hfy : findYear s = some y := by
      obtain ⟨i, hi, htok⟩ := hex
      have hsome : ((List.range s.length).find? (fun j => yearTokenAt s j)).isSome := by
        rw [List.find?_isSome]
        exact ⟨i, List.mem_range.mpr hi, htok⟩
      obtain ⟨j, hj⟩ := Option.isSome_iff_exists.mp hsome
      have hpj : yearTokenAt s j = true := List.find?_some hj
      have hjlt : j < s.length := List.mem_range.mp (List.mem_of_find?_eq_some hj)
      unfold findYear
      rw [hj]
      exact congrArg some (huniqY j hjlt hpj)
    have hfm : findMonth s = some mn := by
      have hsome : (MONTHS.find? (fun p => occursWord s p.1)).isSome := by
        rw [List.find?_isSome]
        exact ⟨(mw, mn), hmem, hocc⟩
      obtain ⟨p0, hp0⟩ := Option.isSome_iff_exists.mp hsome
      have hq := List.find?_some hp0
      have hp0eq : p0 = (mw, mn) :=
        huniqM p0 (List.mem_of_find?_eq_some hp0) hq
      unfold findMonth
      rw [hp0, hp0eq]
      rfl
    simp [extract_year_month, ← hs, hfy, hfm]
  · intro name h
    rcases h with h | h
    · have hnone : (List.range name.length).find?
          (fun j => yearTokenAt (name.map Char.toLower) j) = none :=
        List.find?_eq_none.mpr (fun i hi => by
          have hlt : i < (name.map Char.toLower).length := by
            rw [List.length_map]; exact List.mem_range.mp hi
          simp [h i hlt])
      simp [extract_year_month, findYear, hnone]
    · have hfm : MONTHS.find? (fun p => occursWord (name.map Char.toLower) p.1) = none :=
        List.find?_eq_none.mpr (fun p hp => by simp [h p hp])
      cases hfy : findYear (name.map Char.toLower) with
      | none => simp [extract_year_month, hfy]
      | some y => simp [extract_year_month, findMonth, hfy, hfm]

/-- Witness for C2: a concrete name with month word and year token, and a
concrete name with a year but no month word. -/
theorem claim_c2_extract_year_month_witness :
    extract_year_month "Job Bank January 2024".toList = some (2024, 1)
    ∧ extract_year_month "Job Bank Report 2024".toList = none := by
  constructor
  · exact claim_c2_extract_year_month.1 "Job Bank January 2024".toList 2024
      "january".toList 1 (by decide) (by decide) (by decide) (by decide)
      (by decide) (by decide)
  · exact claim_c2_extract_year_month.2 "Job Bank Report 2024".toList
      (Or.inr (by decide))

/-- The encoding loop, characterized on success: the returned triple comes
from the reported encoding, and the tab retry is preferred exactly when the
sniffed parse has one column, the sniffed separator is not tab, and the tab
parse succeeds with more than one column. -/
theorem readCsvLoop_ok (parse : List Char → List Char → Except Unit Frame)
    (sep : List Char) :
    ∀ (encs : List (List Char)) (df : Frame) (enc sepOut : List Char),
      readCsvLoop parse sep encs = .ok (df, enc, sepOut) →
      ∃ df1, parse enc sep = .ok df1 ∧
        ((df1.ncols = 1 ∧ sep ≠ tabSep ∧ parse enc tabSep = .ok df ∧ 1 < df.ncols ∧
            sepOut = tabSep)
         ∨ (df = df1 ∧ sepOut = sep ∧
            ¬(df1.ncols = 1 ∧ sep ≠ tabSep ∧
              ∃ df2, parse enc tabSep = .ok df2 ∧ 1 < df2.ncols))) := by
  intro encs
  induction encs with
  | nil =>
    intro df enc sepOut h
    simp [readCsvLoop] at h
  | cons e rest ih =>
    intro df enc sepOut h
    cases hp : parse e sep with
    | error err =>
      simp only [readCsvLoop, hp] at h
      exact ih df enc sepOut h
    | ok df1 =>
      simp only [readCsvLoop, hp] at h
      by_cases hcond : (df1.ncols == 1 && sep != tabSep) = true
      · rw [if_pos hcond] at h
        rw [Bool.and_eq_true, beq_iff_eq, bne_iff_ne] at hcond
        cases hp2 : parse e tabSep with
        | error err =>
          simp only [hp2] at h
          exact ih df enc sepOut h
        | ok df2 =>
          simp only [hp2] at h
          by_cases hgt : 1 < df2.ncols
          · rw [if_pos hgt] at h
            obtain ⟨rfl, rfl, rfl⟩ : df2 = df ∧ e = enc ∧ tabSep = sepOut := by
              injection h with h'
              injection h' with h1 h2
              injection h2 with h2 h3
              exact ⟨h1, h2, h3⟩
            exact ⟨df1, hp, Or.inl ⟨hcond.1, hcond.2, hp2, hgt, rfl⟩⟩
          · rw [if_neg hgt] at h
            obtain ⟨rfl, rfl, rfl⟩ : df1 = df ∧ e = enc ∧ sep = sepOut := by
              injection h with h'
              injection h' with h1 h2
              injection h2 with h2 h3
              exact ⟨h1, h2, h3⟩
            refine ⟨df1, hp, Or.inr ⟨rfl, rfl, ?_⟩⟩
            rintro ⟨-, -, df2', hp2', hgt'⟩
            rw [hp2] at hp2'
            injection hp2' with h''
            exact hgt (h'' ▸ hgt')
      · rw [if_neg hcond] at h
        rw [Bool.and_eq_true, beq_iff_eq, bne_iff_ne] at hcond
        push_neg at hcond
        obtain ⟨rfl, rfl, rfl⟩ : df1 = df ∧ e = enc ∧ sep = sepOut := by
          injection h with h'
          injection h' with h1 h2
          injection h2 with h2 h3
          exact ⟨h1, h2, h3⟩
        refine ⟨df1, hp, Or.inr ⟨rfl, rfl, ?_⟩⟩
        rintro ⟨h1, h2, -⟩
        exact h2 (hcond h1)

/-- C6: whenever `read_csv_robust_from_bytes` succeeds with `(df, enc,
sepOut)`, the parse with the sniffed delimiter at the returned encoding
succeeded; the result is the tab-delimited retry (with delimiter tab)
exactly when that parse had one column, the sniffed delimiter was not tab,
and the retry yielded more than one column — otherwise it is the original
frame with the sniffed delimiter. -/
theorem claim_c6_tab_retry :
    ∀ (parse : List Char → List Char → Except Unit Frame) (sep : List Char)
      (df : Frame) (enc sepOut : List Char),
      read_csv_robust_from_bytes parse sep = .ok (df, enc, sepOut) →
      ∃ df1, parse enc sep = .ok df1 ∧
        ((df1.ncols = 1 ∧ sep ≠ tabSep ∧ parse enc tabSep = .ok df ∧ 1 < df.ncols ∧
            sepOut = tabSep)
         ∨ (df = df1 ∧ sepOut = sep ∧
            ¬(df1.ncols = 1 ∧ sep ≠ tabSep ∧
              ∃ df2, parse enc tabSep = .ok df2 ∧ 1 < df2.ncols))) :=
  fun parse sep => readCsvLoop_ok parse sep encodingsToTry

/-- Witness for C6: the oracle that sniffs one comma-separated column but
three tab-separated columns makes the reader return the tab frame. -/
theorem claim_c6_tab_retry_witness :
    ∃ df1, tabOnlyParse "utf-8".toList ",".toList = .ok df1 ∧
      ((df1.ncols = 1 ∧ ",".toList ≠ tabSep ∧
          tabOnlyParse "utf-8".toList tabSep = .ok (⟨3⟩ : Frame) ∧
          1 < (⟨3⟩ : Frame).ncols ∧ tabSep = tabSep)
       ∨ ((⟨3⟩ : Frame) = df1 ∧ tabSep = ",".toList ∧
          ¬(df1.ncols = 1 ∧ ",".toList ≠ tabSep ∧
            ∃ df2, tabOnlyParse "utf-8".toList tabSep = .ok df2 ∧ 1 < df2.ncols))) :=
  claim_c6_tab_retry tabOnlyParse ",".toList ⟨3⟩ "utf-8".toList tabSep rfl

/-! Helper lemmas for the state-file round trip. -/

theorem isPySpace_of_lineBreak {c : Char} (h : isLineBreakCh c = true) :
    isPySpace c = true := by
  simp [isPySpace, h]

theorem lineBreak_eq_false {c : Char} (h : isPySpace c = false) :
    isLineBreakCh c = false := by
  cases hb : isLineBreakCh c
  · rfl
  · rw [isPySpace_of_lineBreak hb] at h
    cases h

theorem dropWhile_eq_self_of_all {l : List Char}
    (h : ∀ c ∈ l, isPySpace c = false) : l.dropWhile isPySpace = l := by
  cases l with
  | nil => rfl
  | cons c l' =>
    rw [List.dropWhile_cons, h c (List.mem_cons_self c l')]
    simp

theorem pyStrip_eq_self {k : List Char} (h : ∀ c ∈ k, isPySpace c = false) :
    pyStrip k = k := by
  unfold pyStrip
  rw [dropWhile_eq_self_of_all h,
    dropWhile_eq_self_of_all (fun c hc => h c (List.mem_reverse.mp hc)),
    List.reverse_reverse]

theorem splitlinesAux_newline (rest acc : List Char) :
    splitlinesAux ('\n' :: rest) acc = acc.reverse :: splitlinesAux rest [] := by
  cases rest with
  | nil => simp [splitlinesAux, isLineBreakCh]
  | cons d rest2 => simp [splitlinesAux, isLineBreakCh]

theorem splitlinesAux_notbreak {c : Char} (hc : isLineBreakCh c = false)
    (rest acc : List Char) :
    splitlinesAux (c :: rest) acc = splitlinesAux rest (c :: acc) := by
  cases rest with
  | nil => simp [splitlinesAux, hc]
  | cons d rest2 => simp [splitlinesAux, hc]

theorem splitlinesAux_key (k : List Char)
    (h : ∀ c ∈ k, isLineBreakCh c = false) :
    ∀ (rest acc : List Char),
      splitlinesAux (k ++ '\n' :: rest) acc =
        (acc.reverse ++ k) :: splitlinesAux rest [] := by
  induction k with
  | nil =>
    intro rest acc
    rw [List.nil_append, splitlinesAux_newline, List.append_nil]
  | cons c k' ih =>
    intro rest acc
    have hc : isLineBreakCh c = false := h c (List.mem_cons_self c k')
    rw [List.cons_append, splitlinesAux_notbreak hc,
      ih (fun d hd => h d (List.mem_cons_of_mem c hd)) rest (c :: acc)]
    simp

theorem splitlines_joinLines : ∀ (ks : List (List Char)), ks ≠ [] →
    (∀ k ∈ ks, ∀ c ∈ k, isLineBreakCh c = false) →
    splitlinesPy (joinLines ks ++ ['\n']) = ks
  | [], hne, _ => absurd rfl hne
  | [k], _, h => by
    show splitlinesAux (k ++ '\n' :: []) [] = [k]
    rw [splitlinesAux_key k (h k (List.mem_cons_self k [])) [] []]
    rfl
  | k :: k2 :: ks'', _, h => by
    show splitlinesAux ((k ++ '\n' :: joinLines (k2 :: ks'')) ++ ['\n']) [] =
      k :: k2 :: ks''
    rw [List.append_assoc, List.cons_append,
      splitlinesAux_key k (h k (List.mem_cons_self k _)) _ []]
    have ih := splitlines_joinLines (k2 :: ks'') (by simp)
      (fun k1 hk1 => h k1 (List.mem_cons_of_mem k hk1))
    simp only [List.reverse_nil, List.nil_append]
    exact congrArg (k :: ·) ih

/-- C9: `save_state` writes the month keys sorted (one per line, terminated
by a newline), and `load_state` of the written file recovers exactly the
same set of keys, for keys that are non-empty and whitespace-free. -/
theorem claim_c9_state_roundtrip :
    ∀ (state : List (List Char)), state.Nodup →
      (∀ k ∈ state, k ≠ [] ∧ ∀ c ∈ k, isPySpace c = false) →
      load_state (save_state state) = state.mergeSort lexLe
      ∧ (state.mergeSort lexLe).Pairwise (fun a b => lexLe a b = true)
      ∧ (load_state (save_state state)).toFinset = state.toFinset := by
  intro state hnd hk
  have hsorted : (state.mergeSort lexLe).Pairwise (fun a b => lexLe a b = true) :=
    List.sorted_mergeSort lexLe_trans lexLe_total state
  have hperm : (state.mergeSort lexLe).Perm state := List.mergeSort_perm state lexLe
  have hks : ∀ k ∈ state.mergeSort lexLe, k ≠ [] ∧ ∀ c ∈ k, isPySpace c = false :=
    fun k hkm => hk k (hperm.mem_iff.mp hkm)
  have hnodks : (state.mergeSort lexLe).Nodup := hperm.nodup_iff.mpr hnd
  have hmain : load_state (save_state state) = state.mergeSort lexLe := by
    cases hms : state.mergeSort lexLe with
    | nil =>
      have hst : state = [] := by
        have := hms ▸ hperm
        exact this.symm.eq_nil
      subst hst
      unfold load_state save_state
      rw [hms]
      decide
    | cons k0 ks0 =>
      unfold load_state save_state
      rw [hms] at hks hnodks ⊢
      rw [splitlines_joinLines (k0 :: ks0) (by simp)
        (fun k hk1 c hc => lineBreak_eq_false ((hks k hk1).2 c hc))]
      rw [List.map_congr_left (fun k hk1 => pyStrip_eq_self (hks k hk1).2)]
      rw [show (fun (k : List Char) => k) = id from rfl, List.map_id]
      rw [List.filter_eq_self.mpr (fun k hk1 => by
        cases k with
        | nil => exact absurd rfl (hks [] hk1).1
        | cons c k' => rfl)]
      exact List.dedup_eq_self.mpr hnodks
  exact ⟨hmain, hsorted, by rw [hmain]; exact List.toFinset_eq_of_perm _ _ hperm⟩

/-- Witness for C9: two unsorted concrete keys round-trip to the sorted
pair. -/
theorem claim_c9_state_roundtrip_witness :
    load_state (save_state ["2024-02".toList, "2024-01".toList]) =
      (["2024-02".toList, "2024-01".toList] : List (List Char)).mergeSort lexLe
    ∧ ((["2024-02".toList, "2024-01".toList] : List (List Char)).mergeSort
        lexLe).Pairwise (fun a b => lexLe a b = true)
    ∧ (load_state (save_state ["2024-02".toList, "2024-01".toList])).toFinset =
      (["2024-02".toList, "2024-01".toList] : List (List Char)).toFinset :=
  claim_c9_state_roundtrip ["2024-02".toList, "2024-01".toList]
    (by decide) (by decide)

/-! Helper lemmas for the `by_month` dictionary. -/

theorem assocLookup_append : ∀ (d₁ d₂ : List (List Char × Cand)) (k : List Char),
    assocLookup (d₁ ++ d₂) k =
      match assocLookup d₁ k with
      | some v => some v
      | none => assocLookup d₂ k := by
  intro d₁
  induction d₁ with
  | nil => intro d₂ k; rfl
  | cons p d' ih =>
    rcases p with ⟨k', v⟩
    intro d₂ k
    rw [List.cons_append]
    simp only [assocLookup]
    by_cases hk : k = k'
    · simp [hk]
    · simp only [if_neg hk]
      exact ih d₂ k

theorem assocLookup_replace :
    ∀ (d : List (List Char × Cand)) (k0 : List Char) (c : Cand) (k : List Char),
      assocLookup (assocReplace d k0 c) k =
        if k = k0 then
          match assocLookup d k0 with
          | none => none
          | some _ => some c
        else assocLookup d k := by
  intro d
  induction d with
  | nil =>
    intro k0 c k
    by_cases hk : k = k0 <;> simp [assocReplace, assocLookup, hk]
  | cons p d' ih =>
    rcases p with ⟨k', v⟩
    intro k0 c k
    simp only [assocReplace]
    by_cases h0 : k0 = k'
    · subst h0
      rw [if_pos rfl]
      simp only [assocLookup]
      by_cases hk : k = k0
      · simp [hk]
      · simp [hk]
    · rw [if_neg h0]
      simp only [assocLookup]
      by_cases hk : k = k'
      · have hkk0 : k ≠ k0 := by
          rw [hk]; exact fun h => h0 h.symm
        rw [if_pos hk, if_neg hkk0, if_pos hk]
      · rw [if_neg hk, ih]
        by_cases hk0 : k = k0
        · rw [if_pos hk0, if_pos hk0]
          simp [assocLookup, h0]
        · rw [if_neg hk0, if_neg hk0, if_neg hk]

theorem byMonthStep_lookup (d : List (List Char × Cand)) (c : Cand) (k : List Char) :
    assocLookup (byMonthStep d c) k =
      if c.ym = k then stepCand c (assocLookup d k)
      else assocLookup d k := by
  unfold byMonthStep
  by_cases hcy : c.ym = k
  · subst hcy
    rw [if_pos rfl]
    cases hl : assocLookup d c.ym with
    | none =>
      simp only [hl]
      rw [assocLookup_append, hl]
      simp [assocLookup, stepCand]
    | some b =>
      simp only [hl, stepCand]
      by_cases hlt : lexLt b.created c.created = true
      · rw [if_pos hlt, assocLookup_replace, if_pos rfl, hl, if_pos hlt]
      · rw [Bool.not_eq_true] at hlt
        rw [hlt]
        simp [hl]
  · rw [if_neg hcy]
    cases hl : assocLookup d c.ym with
    | none =>
      simp only [hl]
      rw [assocLookup_append]
      have hone : assocLookup [(c.ym, c)] k = none := by
        have hne : ¬ k = c.ym := fun h => hcy (Eq.symm h)
        simp [assocLookup, hne]
      rw [hone]
      cases assocLookup d k <;> rfl
    | some b =>
      simp only [hl]
      by_cases hlt : lexLt b.created c.created = true
      · rw [if_pos hlt, assocLookup_replace,
          if_neg (fun h => hcy (Eq.symm h))]
      · rw [Bool.not_eq_true] at hlt
        rw [hlt]
        simp

theorem assocLookup_foldl (k : List Char) :
    ∀ (l : List Cand) (d : List (List Char × Cand)),
      assocLookup (l.foldl byMonthStep d) k = bestForAux k (assocLookup d k) l := by
  intro l
  induction l with
  | nil => intro d; rfl
  | cons c l' ih =>
    intro d
    rw [List.foldl_cons, ih (byMonthStep d c)]
    simp only [bestForAux]
    congr 1
    rw [byMonthStep_lookup]
    by_cases hcy : c.ym = k
    · rw [if_pos hcy, if_neg (not_not_intro hcy)]
    · rw [if_neg hcy, if_pos hcy]

theorem buildByMonth_lookup (l : List Cand) (k : List Char) :
    assocLookup (buildByMonth l) k = bestForAux k none l :=
  assocLookup_foldl k l []

/-- The dedup fold keeps a strict maximum: if `c` has key `k` and strictly
dominates (by `created`) every other key-`k` candidate of the list, the fold
ends on `c`, from any accumulator that is `c` itself, empty, or dominated. -/
theorem bestForAux_max (k : List Char) (c : Cand) :
    ∀ (l : List Cand) (acc : Option Cand),
      (∀ d ∈ l, d.ym = k → d ≠ c → lexLt d.created c.created = true) →
      (acc = some c ∨
        ((acc = none ∨ ∃ b, acc = some b ∧ lexLt b.created c.created = true) ∧
          c ∈ l ∧ c.ym = k)) →
      bestForAux k acc l = some c := by
  intro l
  induction l with
  | nil =>
    intro acc hdom hinv
    rcases hinv with rfl | ⟨_, hc, _⟩
    · rfl
    · exact absurd hc (List.not_mem_nil c)
  | cons d l' ih =>
    intro acc hdom hinv
    have hdom' : ∀ e ∈ l', e.ym = k → e ≠ c → lexLt e.created c.created = true :=
      fun e he => hdom e (List.mem_cons_of_mem d he)
    simp only [bestForAux]
    by_cases hdy : d.ym = k
    · rw [if_neg (not_not_intro hdy)]
      rcases hinv with rfl | ⟨hb, hcmem, hck⟩
      · by_cases hdc : d = c
        · subst hdc
          simp only [stepCand, ite_self]
          exact ih (some d) hdom' (Or.inl rfl)
        · have hf : lexLt c.created d.created = false :=
            lexLt_asymm (hdom d (List.mem_cons_self d l') hdy hdc)
          simp only [stepCand, hf, Bool.false_eq_true, if_false]
          exact ih (some c) hdom' (Or.inl rfl)
      · rcases hb with rfl | ⟨b, rfl, hblt⟩
        · by_cases hdc : d = c
          · subst hdc
            exact ih (some d) hdom' (Or.inl rfl)
          · have hcl' : c ∈ l' := by
              rcases List.mem_cons.mp hcmem with rfl | h
              · exact absurd rfl hdc
              · exact h
            exact ih (some d) hdom'
              (Or.inr ⟨Or.inr ⟨d, rfl,
                hdom d (List.mem_cons_self d l') hdy hdc⟩, hcl', hck⟩)
        · by_cases hdc : d = c
          · subst hdc
            simp only [stepCand, hblt, if_pos]
            exact ih (some d) hdom' (Or.inl rfl)
          · have hcl' : c ∈ l' := by
              rcases List.mem_cons.mp hcmem with rfl | h
              · exact absurd rfl hdc
              · exact h
            by_cases hbd : lexLt b.created d.created = true
            · simp only [stepCand, hbd, if_pos]
              exact ih (some d) hdom'
                (Or.inr ⟨Or.inr ⟨d, rfl,
                  hdom d (List.mem_cons_self d l') hdy hdc⟩, hcl', hck⟩)
            · rw [Bool.not_eq_true] at hbd
              simp only [stepCand, hbd, Bool.false_eq_true, if_false]
              exact ih (some b) hdom'
                (Or.inr ⟨Or.inr ⟨b, rfl, hblt⟩, hcl', hck⟩)
    · rw [if_pos hdy]
      rcases hinv with rfl | ⟨hb, hcmem, hck⟩
      · exact ih (some c) hdom' (Or.inl rfl)
      · have hcl' : c ∈ l' := by
          rcases List.mem_cons.mp hcmem with rfl | h
          · exact absurd hck hdy
          · exact h
        exact ih acc hdom' (Or.inr ⟨hb, hcl', hck⟩)

/-- The dedup fold never replaces an incumbent that is not strictly
dominated. -/
theorem bestForAux_keep (k : List Char) (b : Cand) :
    ∀ l : List Cand,
      (∀ d ∈ l, d.ym = k → lexLt b.created d.created = false) →
      bestForAux k (some b) l = some b := by
  intro l
  induction l with
  | nil => intro _; rfl
  | cons d l' ih =>
    intro h
    simp only [bestForAux]
    by_cases hdy : d.ym = k
    · rw [if_neg (not_not_intro hdy)]
      have hf := h d (List.mem_cons_self d l') hdy
      simp only [stepCand, hf, Bool.false_eq_true, if_false]
      exact ih (fun e he hek => h e (List.mem_cons_of_mem d he) hek)
    · rw [if_pos hdy]
      exact ih (fun e he hek => h e (List.mem_cons_of_mem d he) hek)

/-- C4: when one surviving candidate of key `k` strictly dominates every
other one by creation-timestamp string (in particular when two candidates
share the key with different timestamps), the `by_month` dictionary of
`list_monthly_resources_dedup` maps `k` to that candidate, and it does so
for every permutation of the input resource list. -/
theorem claim_c4_dedup_latest_created :
    ∀ (startYear currentYear : Nat) (rs rsPerm : List Resource)
      (k : List Char) (c : Cand),
      rs.Perm rsPerm →
      c ∈ candidatesOf startYear currentYear rs →
      c.ym = k →
      (∀ d ∈ candidatesOf startYear currentYear rs, d.ym = k → d ≠ c →
        lexLt d.created c.created = true) →
      assocLookup (buildByMonth (candidatesOf startYear currentYear rs)) k = some c
      ∧ assocLookup (buildByMonth (candidatesOf startYear currentYear rsPerm)) k
        = some c := by
  intro sy cy rs rsp k c hperm hcmem hck hdom
  have hpermC : (candidatesOf sy cy rs).Perm (candidatesOf sy cy rsp) :=
    List.Perm.filterMap (toCandidate sy cy) hperm
  constructor
  · rw [buildByMonth_lookup]
    exact bestForAux_max k c _ none hdom (Or.inr ⟨Or.inl rfl, hcmem, hck⟩)
  · rw [buildByMonth_lookup]
    refine bestForAux_max k c _ none ?_
      (Or.inr ⟨Or.inl rfl, hpermC.mem_iff.mp hcmem, hck⟩)
    intro d hd hdk hdc
    exact hdom d (hpermC.mem_iff.mpr hd) hdk hdc

/-- Witness for C4: two CSV resources for January 2024 with different
creation timestamps, fed in both orders; the later-created one is chosen. -/
theorem claim_c4_dedup_latest_created_witness :
    assocLookup (buildByMonth (candidatesOf 2024 2025 [resJan24v1, resJan24v2]))
      "2024-01".toList = some candJan24v2
    ∧ assocLookup (buildByMonth (candidatesOf 2024 2025 [resJan24v2, resJan24v1]))
      "2024-01".toList = some candJan24v2 :=
  claim_c4_dedup_latest_created 2024 2025 [resJan24v1, resJan24v2]
    [resJan24v2, resJan24v1] "2024-01".toList candJan24v2
    (List.Perm.swap resJan24v2 resJan24v1 []) (by decide) (by decide) (by decide)

/-- C10: implicit tie-break of the dedup loop — when all candidates of key
`k` carry the same creation timestamp, the dictionary keeps the first one
in input order (the comparison is strict, so the incumbent wins ties); in
particular two tied candidates are resolved differently by the two input
orders. -/
theorem claim_c10_tie_keeps_incumbent :
    (∀ (l : List Cand) (k : List Char),
      (∀ c ∈ l, ∀ d ∈ l, c.ym = k → d.ym = k → c.created = d.created) →
      assocLookup (buildByMonth l) k = (l.filter (fun c => c.ym == k)).head?)
    ∧ (∀ a b : Cand, a.ym = b.ym → a.created = b.created →
        assocLookup (buildByMonth [a, b]) a.ym = some a
        ∧ assocLookup (buildByMonth [b, a]) a.ym = some b) := by
  have main : ∀ (l : List Cand) (k : List Char),
      (∀ c ∈ l, ∀ d ∈ l, c.ym = k → d.ym = k → c.created = d.created) →
      assocLookup (buildByMonth l) k = (l.filter (fun c => c.ym == k)).head? := by
    intro l k
    rw [buildByMonth_lookup]
    induction l with
    | nil => intro _; rfl
    | cons c l' ih =>
      intro htie
      have htie' : ∀ e ∈ l', ∀ d ∈ l', e.ym = k → d.ym = k → e.created = d.created :=
        fun e he d hd => htie e (List.mem_cons_of_mem c he) d (List.mem_cons_of_mem c hd)
      simp only [bestForAux, List.filter_cons]
      by_cases hcy : c.ym = k
      · rw [if_neg (not_not_intro hcy)]
        simp only [stepCand]
        rw [bestForAux_keep k c l' (fun d hd hdk => by
          rw [htie c (List.mem_cons_self c l') d (List.mem_cons_of_mem c hd) hcy hdk]
          exact lexLt_irrefl d.created)]
        rw [if_pos (by exact beq_iff_eq.mpr hcy)]
        rfl
      · rw [if_pos hcy, ih htie']
        rw [if_neg (by simp [hcy])]
  refine ⟨main, fun a b hab hcr => ⟨?_, ?_⟩⟩
  · rw [main [a, b] a.ym (by
      intro c hc d hd _ _
      rcases List.mem_pair.mp hc with rfl | rfl <;>
        rcases List.mem_pair.mp hd with rfl | rfl
      · rfl
      · exact hcr
      · exact hcr.symm
      · rfl)]
    simp [List.filter, hab.symm]
  · rw [main [b, a] a.ym (by
      intro c hc d hd _ _
      rcases List.mem_pair.mp hc with rfl | rfl <;>
        rcases List.mem_pair.mp hd with rfl | rfl
      · rfl
      · exact hcr.symm
      · exact hcr
      · rfl)]
    simp [List.filter, hab.symm]

/-- Witness for C10: two tied concrete candidates; each input order keeps
its first element. -/
theorem claim_c10_tie_keeps_incumbent_witness :
    assocLookup (buildByMonth [candJan24v2,
      ⟨2024, 1, "2024-01".toList, "Job Bank January 2024 alt".toList,
        "u3".toList, "2024-02-05T00:00:00".toList⟩]) candJan24v2.ym
      = some candJan24v2
    ∧ assocLookup (buildByMonth
        [⟨2024, 1, "2024-01".toList, "Job Bank January 2024 alt".toList,
          "u3".toList, "2024-02-05T00:00:00".toList⟩, candJan24v2])
        candJan24v2.ym
      = some ⟨2024, 1, "2024-01".toList, "Job Bank January 2024 alt".toList,
          "u3".toList, "2024-02-05T00:00:00".toList⟩ :=
  claim_c10_tie_keeps_incumbent.2 candJan24v2
    ⟨2024, 1, "2024-01".toList, "Job Bank January 2024 alt".toList,
      "u3".toList, "2024-02-05T00:00:00".toList⟩ (by decide) (by decide)

/-- Every effect of the month loop is a monthly-raw write. -/
theorem runMonths_effects (fetch : Cand → Except Unit Frame) :
    ∀ l : List Cand, ∀ x ∈ (runMonths fetch l).1, ∃ ym, x = Effect.rawMonthly ym := by
  intro l
  induction l with
  | nil => intro x hx; exact absurd hx (List.not_mem_nil x)
  | cons c rest ih =>
    intro x hx
    cases hf : fetch c with
    | error e =>
      simp only [runMonths, hf] at hx
      exact absurd hx (List.not_mem_nil x)
    | ok df =>
      simp only [runMonths, hf] at hx
      rcases List.mem_cons.mp hx with rfl | hx'
      · exact ⟨c.ym, rfl⟩
      · exact ih x hx'

/-- C3: in a run with at least one new month, the master parquet, the
master CSV mirror and the state file are written as the final steps, in
that order, after all monthly-raw writes; and a run that raises during any
fetch/parse performs none of those three writes. -/
theorem claim_c3_master_state_written_last :
    ∀ (state : List (List Char)) (resources : List Cand)
      (fetch : Cand → Except Unit Frame),
      (∀ e, (runMain state resources fetch).2 = .error e →
        Effect.masterParquet ∉ (runMain state resources fetch).1
        ∧ Effect.masterCsv ∉ (runMain state resources fetch).1
        ∧ Effect.stateFile ∉ (runMain state resources fetch).1)
      ∧ ((runMain state resources fetch).2 = .ok () →
          resources.filter (fun r => !(state.contains r.ym)) ≠ [] →
          ∃ pre, (runMain state resources fetch).1 =
              pre ++ [Effect.masterParquet, Effect.masterCsv, Effect.stateFile]
            ∧ ∀ x ∈ pre, ∃ ym, x = Effect.rawMonthly ym) := by
  intro state resources fetch
  by_cases hnm : (resources.filter (fun r => !(state.contains r.ym))).isEmpty = true
  · have hmain : runMain state resources fetch = ([], .ok ()) := by
      simp only [runMain]
      rw [if_pos hnm]
    rw [hmain]
    constructor
    · intro e he
      exact absurd he (by simp)
    · intro _ hne
      exact absurd (List.isEmpty_iff.mp hnm) hne
  · cases hr : (runMonths fetch
        (resources.filter (fun r => !(state.contains r.ym)))).2 with
    | error e0 =>
      have hmain : runMain state resources fetch =
          ((runMonths fetch
            (resources.filter (fun r => !(state.contains r.ym)))).1, .error e0) := by
        simp only [runMain]
        rw [if_neg hnm]
        simp only [hr]
      rw [hmain]
      constructor
      · intro e _
        refine ⟨?_, ?_, ?_⟩ <;>
          · intro hmem
            obtain ⟨ym, hx⟩ := runMonths_effects fetch _ _ hmem
            cases hx
      · intro hok
        exact absurd hok (by simp)
    | ok frames =>
      have hmain : runMain state resources fetch =
          ((runMonths fetch
              (resources.filter (fun r => !(state.contains r.ym)))).1 ++
            [Effect.masterParquet, Effect.masterCsv, Effect.stateFile], .ok ()) := by
        simp only [runMain]
        rw [if_neg hnm]
        simp only [hr]
      rw [hmain]
      constructor
      · intro e he
        exact absurd he (by simp)
      · intro _ _
        exact ⟨_, rfl, runMonths_effects fetch _⟩

/-- Witness for C3: one new month; with a succeeding fetch the effect list
ends with the three writes, with a raising fetch none of them occur. -/
theorem claim_c3_master_state_written_last_witness :
    (∃ pre, (runMain [] [candJan2024] okFetch).1 =
        pre ++ [Effect.masterParquet, Effect.masterCsv, Effect.stateFile]
      ∧ ∀ x ∈ pre, ∃ ym, x = Effect.rawMonthly ym)
    ∧ (Effect.masterParquet ∉ (runMain [] [candJan2024] failFetch).1
       ∧ Effect.masterCsv ∉ (runMain [] [candJan2024] failFetch).1
       ∧ Effect.stateFile ∉ (runMain [] [candJan2024] failFetch).1) :=
  ⟨(claim_c3_master_state_written_last [] [candJan2024] okFetch).2 rfl (by decide),
   (claim_c3_master_state_written_last [] [candJan2024] failFetch).1 () rfl⟩

/-- C5: when every listed month key is already in the loaded state, `main`
returns with no file writes at all — re-running ingestion with no new
upstream resources leaves master and state untouched. -/
theorem claim_c5_no_new_months_no_writes :
    ∀ (state : List (List Char)) (resources : List Cand)
      (fetch : Cand → Except Unit Frame),
      (∀ r ∈ resources, state.contains r.ym = true) →
      runMain state resources fetch = ([], .ok ()) := by
  intro state resources fetch h
  have hfil : resources.filter (fun r => !(state.contains r.ym)) = [] :=
    List.filter_eq_nil_iff.mpr (fun r hr => by rw [h r hr]; simp)
  simp only [runMain]
  rw [hfil]
  rfl

/-- Witness for C5: the only resource's month key is already recorded. -/
theorem claim_c5_no_new_months_no_writes_witness :
    runMain ["2024-01".toList] [candJan2024] okFetch = ([], .ok ()) :=
  claim_c5_no_new_months_no_writes ["2024-01".toList] [candJan2024] okFetch
    (by decide)

end JobBank
